import Mathlib

/-!
# Verification of the JsSerializer schema/template engine

A shallow embedding of `src/serializer.js`: a schema-driven bidirectional
mapping between native JavaScript values and an XML element tree.

Modelling decisions (documented where used):
* JavaScript values are the inductive `JsValue`.  JavaScript numbers are
  modelled as `Option Int` — `none` is the `NaN` sentinel, `some i` an
  integer-valued number.  The fractional/exponential part of the IEEE double
  domain is outside the model; every numeric example in the repository is an
  integer.
* Object identity ("which constructor built this object") is modelled as a
  `String` tag on `JsValue.obj` — the source passes a constructor function
  (`objectType`) whose only observable role here is that identity.
* Fallible operations (JavaScript `TypeError` on property access of
  `undefined`, `undefined.toString()`, `undefined.map`) return
  `Except Unit`.
* The host DOM collaborators (`DOMParser`, `innerHTML` serialization,
  `createElement`, `textContent`) are modelled by executable Lean functions
  on the `Node` tree type, covering the element/text fragment the engine
  uses (no attributes, the `amp`/`lt`/`gt` entities).
-/

namespace JsSer

/-- A JavaScript value, as far as the serializer observes it.  `num none`
is `NaN`; `obj ctor fields` is an object with constructor identity `ctor`
and own enumerable fields `fields` in insertion order. -/
inductive JsValue where
  | undef
  | bool (b : Bool)
  | num (n : Option Int)
  | str (s : String)
  | arr (items : List JsValue)
  | obj (ctor : String) (fields : List (String × JsValue))

/-- First-match association-list lookup, the model of JavaScript property
lookup on plain data objects (no prototype chain). -/
def lookupA {α : Type} : List (String × α) → String → Option α
  | [], _ => none
  | (n, v) :: rest, name => if n = name then some v else lookupA rest name

/-- The character for a single decimal digit value. -/
def digitChar (n : Nat) : Char := Char.ofNat (48 + n)

/-- Decimal digit characters of a natural number (fuel-indexed so that the
definition is structural and kernel-reducible). -/
def natDigitsAux : Nat → Nat → List Char
  | 0, _ => []
  | fuel + 1, n =>
    if n < 10 then [digitChar n]
    else natDigitsAux fuel (n / 10) ++ [digitChar (n % 10)]

/-- Decimal digit characters of a natural number, most significant first. -/
def natDigits (n : Nat) : List Char := natDigitsAux (n + 1) n

/-- Decimal representation of an integer, as JavaScript `String(i)` prints
an integer-valued number. -/
def intToDec (i : Int) : List Char :=
  if i < 0 then '-' :: natDigits i.natAbs else natDigits i.natAbs

/-- JavaScript `String(n)` for a number: `NaN` prints as `"NaN"`, an
integer-valued number in decimal.  (Exponential notation for magnitudes
≥ 1e21 is outside the integer model.) -/
def numToString : Option Int → String
  | none => "NaN"
  | some i => String.mk (intToDec i)

mutual
/-- JavaScript `ToString` / `v.toString()` on the values of the model:
booleans print as `"true"`/`"false"`, numbers in decimal (`"NaN"` for NaN),
strings are themselves, arrays join their elements with commas
(`Array.prototype.toString`), and plain objects print `"[object Object]"`.
`String(undefined)` is `"undefined"` (the throwing of `undefined.toString()`
is handled at its call site). -/
def jsToString : JsValue → String
  | .undef => "undefined"
  | .bool b => if b then "true" else "false"
  | .num j => numToString j
  | .str s => s
  | .arr items => String.mk (arrJoin items)
  | .obj _ _ => "[object Object]"

/-- `Array.prototype.toString`: elements joined by `,`. -/
def arrJoin : List JsValue → List Char
  | [] => []
  | [v] => arrElem v
  | v :: rest => arrElem v ++ ',' :: arrJoin rest

/-- One array element in `Array.prototype.toString`: `undefined` renders as
the empty string, other values via `jsToString`. -/
def arrElem : JsValue → List Char
  | .undef => []
  | .bool b => if b then "true".data else "false".data
  | .num j => (numToString j).data
  | .str s => s.data
  | .arr items => arrJoin items
  | .obj _ _ => "[object Object]".data
end

/-- Decimal digit character test. -/
def isDigitChar (c : Char) : Bool := '0' ≤ c && c ≤ '9'

/-- Numeric value of a decimal digit character. -/
def digitVal (c : Char) : Nat := c.toNat - 48

/-- Value of a string of decimal digit characters. -/
def digitsVal (cs : List Char) : Nat := cs.foldl (fun a c => a * 10 + digitVal c) 0

/-- JavaScript whitespace test (the common subset). -/
def isWsChar (c : Char) : Bool := c = ' ' || c = '\t' || c = '\n' || c = '\r'

/-- Leading run of decimal digits, `none` when there is no digit
(the not-a-number sentinel of `parseInt`/`parseFloat`). -/
def parseNatPart (cs : List Char) : Option Nat :=
  let ds := cs.takeWhile isDigitChar
  if ds.isEmpty then none else some (digitsVal ds)

/-- Model of JavaScript `parseInt` on a string (decimal notation: skip
leading whitespace, optional sign, leading digits, trailing junk ignored;
no digit at all gives `NaN`).  The hexadecimal `0x` prefix detection of
`parseInt` is outside the claims' inputs and not modelled. -/
def parseIntChars (cs0 : List Char) : Option Int :=
  let cs := cs0.dropWhile isWsChar
  match cs with
  | [] => none
  | c :: rest =>
    if c = '-' then (parseNatPart rest).map (fun n => -(n : Int))
    else if c = '+' then (parseNatPart rest).map (fun n => (n : Int))
    else (parseNatPart (c :: rest)).map (fun n => (n : Int))

/-- Model of JavaScript `parseFloat` on a string, restricted to the
integer-valued number domain of the model: skip leading whitespace,
optional sign, leading digits, trailing junk ignored; no digit gives
`NaN`.  (Fractional and exponent parts produce non-integer doubles and lie
outside the model's number domain.) -/
def parseFloatChars (cs0 : List Char) : Option Int :=
  let cs := cs0.dropWhile isWsChar
  match cs with
  | [] => none
  | c :: rest =>
    if c = '-' then (parseNatPart rest).map (fun n => -(n : Int))
    else if c = '+' then (parseNatPart rest).map (fun n => (n : Int))
    else (parseNatPart (c :: rest)).map (fun n => (n : Int))

/-- `parseInt(v)` for an arbitrary value: `ToString` then parse. -/
def parseIntJs (v : JsValue) : Option Int := parseIntChars (jsToString v).data

/-- `parseFloat(v)` for an arbitrary value: `ToString` then parse. -/
def parseFloatJs (v : JsValue) : Option Int := parseFloatChars (jsToString v).data

/-- `v === "true"`. -/
def isLiteralTrueString : JsValue → Bool
  | .str s => s == "true"
  | _ => false

/-- `v === true`. -/
def isBoolTrue : JsValue → Bool
  | .bool b => b
  | _ => false

/-- The `TBoolean` value coercion of the source:
`v => v === "true" || v === true || parseInt(v) === 1`. -/
def parseBooleanJs (v : JsValue) : Bool :=
  isLiteralTrueString v || isBoolTrue v || parseIntJs v == some 1

/-- A schema (the source's template classes):
`tobject props objectType` is `new Serializer.Object(props, objectType)`
(`objectType` is the declared native-constructor identity, `"Object"` when
the constructor argument was omitted), `tarray itemName itemTemplate` is
`new Serializer.Array(itemName, itemTemplate)`, and the four primitive
kinds are the argumentless value templates. -/
inductive Template where
  | tobject (props : List (String × Template)) (objectType : String)
  | tarray (itemName : String) (itemTemplate : Template)
  | tboolean
  | tinteger
  | tnumber
  | tstring

/-- An intermediate data object (the source's `DObject`/`DArray`/`DValue`),
each holding the template that constructed it. -/
inductive DEntity where
  | dobject (template : Template) (props : List (String × DEntity))
  | darray (template : Template) (items : List DEntity)
  | dvalue (template : Template) (value : JsValue)

/-- The declared native-constructor identity of an object template
(`this.template.objectType`); the default is the plain `Object`
constructor. -/
def objectTypeOf : Template → String
  | .tobject _ c => c
  | _ => "Object"

/-- The declared item tag name of an array template
(`this.template.item.name`). -/
def itemNameOf : Template → String
  | .tarray nm _ => nm
  | _ => ""

/-- Model of the JavaScript property read `value[name]`: reading a property
of `undefined` throws a `TypeError`; an object yields the field or
`undefined`; any other value yields `undefined`. -/
def jsGet : JsValue → String → Except Unit JsValue
  | .undef, _ => .error ()
  | .obj _ fields, name => .ok ((lookupA fields name).getD .undef)
  | _, _ => .ok .undef

mutual
/-- Schema ingestion from a native value (`fromJs` of each template class).
`TObject.fromJs` reads each declared property off the value;
`TArray.fromJs` maps the item template over the value (throwing when the
value has no `.map`, i.e. is not an array); the primitive templates apply
their value coercion — `TString`'s `v.toString()` throws on `undefined`. -/
def fromJs : Template → JsValue → Except Unit DEntity
  | .tobject props c, v =>
    match fromJsFields props v with
    | .error e => .error e
    | .ok ds => .ok (.dobject (.tobject props c) ds)
  | .tarray nm t, v =>
    match v with
    | .arr items =>
      match fromJsItems t items with
      | .error e => .error e
      | .ok ds => .ok (.darray (.tarray nm t) ds)
    | _ => .error ()
  | .tboolean, v => .ok (.dvalue .tboolean (.bool (parseBooleanJs v)))
  | .tinteger, v => .ok (.dvalue .tinteger (.num (parseIntJs v)))
  | .tnumber, v => .ok (.dvalue .tnumber (.num (parseFloatJs v)))
  | .tstring, v =>
    match v with
    | .undef => .error ()
    | _ => .ok (.dvalue .tstring (.str (jsToString v)))
termination_by t v => (sizeOf t, sizeOf v)

/-- The loop of `TObject.fromJs`:
`Object.keys(properties).forEach(name => result[name] = properties[name].fromJs(value[name]))`. -/
def fromJsFields : List (String × Template) → JsValue → Except Unit (List (String × DEntity))
  | [], _ => .ok []
  | (n, t) :: rest, v =>
    match jsGet v n with
    | .error e => .error e
    | .ok fv =>
      match fromJs t fv with
      | .error e => .error e
      | .ok d =>
        match fromJsFields rest v with
        | .error e => .error e
        | .ok ds => .ok ((n, d) :: ds)
termination_by ps v => (sizeOf ps, sizeOf v)

/-- The loop of `TArray.fromJs`: `value.map(v => item.template.fromJs(v))`. -/
def fromJsItems : Template → List JsValue → Except Unit (List DEntity)
  | _, [] => .ok []
  | t, i :: rest =>
    match fromJs t i with
    | .error e => .error e
    | .ok d =>
      match fromJsItems t rest with
      | .error e => .error e
      | .ok ds => .ok (d :: ds)
termination_by t items => (sizeOf t, sizeOf items)
end

mutual
/-- Rendering an intermediate object back to a native value (`toJs`):
`DObject` constructs `new template.objectType()` and assigns each present
property in insertion order; `DArray` maps; `DValue` returns its stored
primitive unchanged. -/
def toJs : DEntity → JsValue
  | .dobject tmpl props => .obj (objectTypeOf tmpl) (toJsFields props)
  | .darray _ items => .arr (toJsItems items)
  | .dvalue _ v => v

/-- The loop of `DObject.toJs`. -/
def toJsFields : List (String × DEntity) → List (String × JsValue)
  | [] => []
  | (n, d) :: rest => (n, toJs d) :: toJsFields rest

/-- The loop of `DArray.toJs`. -/
def toJsItems : List DEntity → List JsValue
  | [] => []
  | d :: rest => toJs d :: toJsItems rest
end


/-- A tree node of the textual document format: an element with a tag name
and ordered children, or a text node. -/
inductive Node where
  | elem (tag : String) (children : List Node)
  | text (s : String)

mutual
/-- DOM `textContent`: the concatenation of all text inside the node. -/
def textContent : Node → String
  | .text s => s
  | .elem _ cs => String.mk (textContentList cs)

/-- Concatenated text content of a list of nodes. -/
def textContentList : List Node → List Char
  | [] => []
  | n :: rest => (textContent n).data ++ textContentList rest
end

/-- `node.tagName` used as a property key (`TObject.fromXml`): a text node's
`tagName` is `undefined`, which as a JavaScript property key reads as the
string `"undefined"`. -/
def objChildName : Node → String
  | .elem tag _ => tag
  | .text _ => "undefined"

/-- `element.tagName === itemName` (`TArray.fromXml`'s filter): a text
node's `undefined` tag is never strictly equal to a string. -/
def isElemNamed (nm : String) : Node → Bool
  | .elem tag _ => tag = nm
  | .text _ => false

mutual
/-- Schema ingestion from a tree node (`fromXml` of each template class).
`TObject.fromXml` walks the children in document order, filling each
declared, not-yet-filled property (`!properties[name] && this.properties[name]`);
`TArray.fromXml` keeps exactly the children whose tag equals the declared
item name, in order; the primitive templates coerce the node's full text
content.  (A text node's `childNodes` list is empty, so the object/array
cases yield empty results on a text node.) -/
def fromXml : Template → Node → DEntity
  | .tobject props c, .elem _ children => .dobject (.tobject props c) (fromXmlFold props children [])
  | .tobject props c, .text _ => .dobject (.tobject props c) []
  | .tarray nm t, .elem _ children => .darray (.tarray nm t) (fromXmlItems nm t children)
  | .tarray nm t, .text _ => .darray (.tarray nm t) []
  | .tboolean, node => .dvalue .tboolean (.bool (parseBooleanJs (.str (textContent node))))
  | .tinteger, node => .dvalue .tinteger (.num (parseIntJs (.str (textContent node))))
  | .tnumber, node => .dvalue .tnumber (.num (parseFloatJs (.str (textContent node))))
  | .tstring, node => .dvalue .tstring (.str (jsToString (.str (textContent node))))

/-- The loop of `TObject.fromXml`: first occurrence wins, undeclared tags
are ignored, properties are accumulated in document order. -/
def fromXmlFold : List (String × Template) → List Node → List (String × DEntity) →
    List (String × DEntity)
  | _, [], acc => acc
  | props, ch :: rest, acc =>
    match lookupA acc (objChildName ch), lookupA props (objChildName ch) with
    | none, some t => fromXmlFold props rest (acc ++ [(objChildName ch, fromXml t ch)])
    | _, _ => fromXmlFold props rest acc

/-- The loop of `TArray.fromXml`:
`filter(tagName === itemName)` fused with `map(fromXml)`. -/
def fromXmlItems : String → Template → List Node → List DEntity
  | _, _, [] => []
  | nm, t, ch :: rest =>
    if isElemNamed nm ch then fromXml t ch :: fromXmlItems nm t rest
    else fromXmlItems nm t rest
end

/-- DOM assignment `element.textContent = s`: replaces the children with a
single text node holding `s`, or with nothing when `s` is empty. -/
def setTextContent (s : String) : List Node :=
  if s = "" then [] else [.text s]

mutual
/-- Rendering an intermediate object to a tree element (`toXml`):
`DObject` appends one child per present property, each rendered under the
property's own name; `DArray` appends one child per item, all tagged with
the schema's single item name; `DValue` sets the element's text content to
the primitive's string form. -/
def toXml : DEntity → String → Node
  | .dobject _ props, name => .elem name (toXmlFields props)
  | .darray tmpl items, name => .elem name (toXmlItems (itemNameOf tmpl) items)
  | .dvalue _ v, name => .elem name (setTextContent (jsToString v))

/-- The loop of `DObject.toXml`. -/
def toXmlFields : List (String × DEntity) → List Node
  | [] => []
  | (n, d) :: rest => toXml d n :: toXmlFields rest

/-- The loop of `DArray.toXml`. -/
def toXmlItems : String → List DEntity → List Node
  | _, [] => []
  | nm, d :: rest => toXml d nm :: toXmlItems nm rest
end

/-- Characters allowed in a tag name by the model: anything that cannot be
confused with markup (`createElement` rejects names with such characters). -/
def isNameChar (c : Char) : Bool :=
  !(c = '<' || c = '>' || c = '/' || c = '&' || c = ';' || c = '=' ||
    c = '"' || c = '\x27' || isWsChar c)

/-- A well-formed tag name: nonempty, made of name characters. -/
def validNameB (s : String) : Bool := !s.data.isEmpty && s.data.all isNameChar

/-- XML text escaping as the DOM serializer applies it to text nodes. -/
def escapeChar (c : Char) : List Char :=
  if c = '&' then ['&', 'a', 'm', 'p', ';']
  else if c = '<' then ['&', 'l', 't', ';']
  else if c = '>' then ['&', 'g', 't', ';']
  else [c]

/-- Escape a character list. -/
def escapeChars : List Char → List Char
  | [] => []
  | c :: rest => escapeChar c ++ escapeChars rest

/-- The predefined entities the model's parser resolves. -/
def entityChar (cs : List Char) : Option Char :=
  if cs = ['a', 'm', 'p'] then some '&'
  else if cs = ['l', 't'] then some '<'
  else if cs = ['g', 't'] then some '>'
  else none

/-- Entity decoding of character data (fuel-indexed, fuel bounds the input
length); a malformed or unknown entity reference is a parse error. -/
def decodeEntitiesAux : Nat → List Char → Option (List Char)
  | 0, _ => none
  | _ + 1, [] => some []
  | fuel + 1, c :: rest =>
    if c = '&' then
      match entityChar (rest.takeWhile (· ≠ ';')), rest.dropWhile (· ≠ ';') with
      | some ch, _ :: rest' =>
        match decodeEntitiesAux fuel rest' with
        | some ds => some (ch :: ds)
        | none => none
      | _, _ => none
    else
      match decodeEntitiesAux fuel rest with
      | some ds => some (c :: ds)
      | none => none

/-- Entity decoding of character data. -/
def decodeEntities (cs : List Char) : Option (List Char) :=
  decodeEntitiesAux (cs.length + 1) cs

mutual
/-- The DOM XML fragment serializer (`innerHTML` on an XML document):
text nodes escaped, empty elements self-closed. -/
def serNode : Node → List Char
  | .text s => escapeChars s.data
  | .elem tag cs =>
    if cs.isEmpty then '<' :: (tag.data ++ "/>".data)
    else
      '<' :: (tag.data ++ '>' ::
        (serNodes cs ++ '<' :: '/' :: (tag.data ++ ['>'])))

/-- Serialize a list of sibling nodes. -/
def serNodes : List Node → List Char
  | [] => []
  | n :: rest => serNode n ++ serNodes rest
end

mutual
/-- The model's XML parser, one element (fuel-indexed): `<name/>` or
`<name>` children `</name>`, tag names read as maximal runs of name
characters.  Attributes, comments, processing instructions and doctypes
are outside the fragment the serializer emits and are parse errors. -/
def parseNodeAux : Nat → List Char → Option (Node × List Char)
  | 0, _ => none
  | fuel + 1, cs =>
    match cs with
    | [] => none
    | c :: cs1 =>
      if c = '<' then
        let nm := cs1.takeWhile isNameChar
        let cs2 := cs1.dropWhile isNameChar
        if nm.isEmpty then none
        else
          match cs2 with
          | '/' :: '>' :: cs4 => some (.elem (String.mk nm) [], cs4)
          | '>' :: cs3 =>
            match parseChildrenAux fuel cs3 with
            | some (children, cs4) =>
              match cs4 with
              | '<' :: '/' :: cs5 =>
                let nm2 := cs5.takeWhile isNameChar
                let cs6 := cs5.dropWhile isNameChar
                if nm2 = nm then
                  match cs6 with
                  | '>' :: cs7 => some (.elem (String.mk nm) children, cs7)
                  | _ => none
                else none
              | _ => none
            | none => none
          | _ => none
      else none

/-- Parse a list of sibling nodes up to a closing tag or the end of input:
elements recursively, runs of character data as entity-decoded text
nodes. -/
def parseChildrenAux : Nat → List Char → Option (List Node × List Char)
  | 0, _ => none
  | fuel + 1, cs =>
    match cs with
    | [] => some ([], [])
    | c :: cs1 =>
      if c = '<' then
        if cs1.head? = some '/' then some ([], c :: cs1)
        else
          match parseNodeAux fuel (c :: cs1) with
          | some (n, rest) =>
            match parseChildrenAux fuel rest with
            | some (ns, rest') => some (n :: ns, rest')
            | none => none
          | none => none
      else
        match decodeEntities ((c :: cs1).takeWhile (· ≠ '<')) with
        | some ds =>
          if ds.isEmpty then none
          else
            match parseChildrenAux fuel ((c :: cs1).dropWhile (· ≠ '<')) with
            | some (ns, rest') => some (.text (String.mk ds) :: ns, rest')
            | none => none
        | none => none
end

/-- Model of `new DOMParser().parseFromString(string, "text/xml").childNodes[0]`:
parse the document's single root element (`none` models the parser-error
document produced for ill-formed input). -/
def xmlParse (s : String) : Option Node :=
  match parseNodeAux (s.data.length + 1) s.data with
  | some (n, []) => some n
  | _ => none

/-- `DEntity.toXmlString`: render to a tree under `rootName`, attach it
under a synthetic root, and return that root's serialized inner markup. -/
def toXmlString (d : DEntity) (rootName : String) : String :=
  String.mk (serNode (toXml d rootName))

/-- `TType.fromXmlString`: parse the text and ingest the root node. -/
def fromXmlString (t : Template) (s : String) : Option DEntity :=
  (xmlParse s).map (fromXml t)


mutual
/-- Shape match between a schema and a native value: each declared object
field present (in declaration order, with no extra fields), each array
element of the item shape, each primitive already of its coerced type. -/
def matchesB : Template → JsValue → Bool
  | .tobject props _, .obj _ fields => matchesFieldsB props fields
  | .tarray _ t, .arr items => matchesItemsB t items
  | .tboolean, .bool _ => true
  | .tinteger, .num _ => true
  | .tnumber, .num _ => true
  | .tstring, .str _ => true
  | _, _ => false

def matchesFieldsB : List (String × Template) → List (String × JsValue) → Bool
  | [], [] => true
  | (n, t) :: ps, (m, v) :: fs => n = m && matchesB t v && matchesFieldsB ps fs
  | _, _ => false

def matchesItemsB : Template → List JsValue → Bool
  | _, [] => true
  | t, v :: vs => matchesB t v && matchesItemsB t vs
end

mutual
/-- Replace, throughout a value, each object's constructor identity by the
schema's declared one (the only difference `toJs ∘ fromJs` can introduce). -/
def retag : Template → JsValue → JsValue
  | .tobject props c, .obj _ fields => .obj c (retagFields props fields)
  | .tarray _ t, .arr items => .arr (retagItems t items)
  | _, v => v

def retagFields : List (String × Template) → List (String × JsValue) → List (String × JsValue)
  | (_, t) :: ps, (m, v) :: fs => (m, retag t v) :: retagFields ps fs
  | _, fs => fs

def retagItems : Template → List JsValue → List JsValue
  | _, [] => []
  | t, v :: vs => retag t v :: retagItems t vs
end

mutual
/-- Every object schema in the template has pairwise-distinct property
keys — automatic for real JavaScript templates, whose property bags are
objects with unique keys. -/
def nodupKeysB : Template → Bool
  | .tobject props _ => nodupFieldsB props
  | .tarray _ t => nodupKeysB t
  | _ => true

def nodupFieldsB : List (String × Template) → Bool
  | [] => true
  | (n, t) :: rest => (lookupA rest n).isNone && nodupKeysB t && nodupFieldsB rest
end

mutual
/-- Every declared property name and array item name in the template is a
well-formed tag name (as `createElement` requires). -/
def validNamesB : Template → Bool
  | .tobject props _ => validNamesFieldsB props
  | .tarray nm t => validNameB nm && validNamesB t
  | _ => true

def validNamesFieldsB : List (String × Template) → Bool
  | [] => true
  | (n, t) :: rest => validNameB n && validNamesB t && validNamesFieldsB rest
end

mutual
/-- Structural invariant of intermediate objects produced by ingestion:
the entity stores its originating template, object properties conform
fieldwise, array items all conform to the item template, and a value node
holds a primitive of the kind its template coerces to. -/
inductive Conforms : Template → DEntity → Prop where
  | obj {props : List (String × Template)} {c : String} {dprops : List (String × DEntity)} :
      ConformsFields props dprops →
      Conforms (.tobject props c) (.dobject (.tobject props c) dprops)
  | arr {nm : String} {t : Template} {items : List DEntity} :
      ConformsItems t items → Conforms (.tarray nm t) (.darray (.tarray nm t) items)
  | boolv {b : Bool} : Conforms .tboolean (.dvalue .tboolean (.bool b))
  | intv {j : Option Int} : Conforms .tinteger (.dvalue .tinteger (.num j))
  | numv {j : Option Int} : Conforms .tnumber (.dvalue .tnumber (.num j))
  | strv {s : String} : Conforms .tstring (.dvalue .tstring (.str s))

inductive ConformsFields : List (String × Template) → List (String × DEntity) → Prop where
  | nil : ConformsFields [] []
  | cons {n : String} {t : Template} {d : DEntity} {ps : List (String × Template)}
      {ds : List (String × DEntity)} :
      Conforms t d → ConformsFields ps ds → ConformsFields ((n, t) :: ps) ((n, d) :: ds)

inductive ConformsItems : Template → List DEntity → Prop where
  | nil {t : Template} : ConformsItems t []
  | cons {t : Template} {d : DEntity} {ds : List DEntity} :
      Conforms t d → ConformsItems t ds → ConformsItems t (d :: ds)
end

/-- The property mapping of an intermediate object node. -/
def propsOf : DEntity → List (String × DEntity)
  | .dobject _ props => props
  | _ => []

/-- Look a property up in an intermediate object node's mapping. -/
def lookupProp (d : DEntity) (n : String) : Option DEntity := lookupA (propsOf d) n

/-- The own fields of a native object value. -/
def jsFields : JsValue → List (String × JsValue)
  | .obj _ fields => fields
  | _ => []

mutual
/-- Wellformedness of a tree node for the serialize/parse round trip: tag
names are well formed, text nodes are nonempty, and no two text nodes are
adjacent (adjacent runs of character data cannot be told apart after
serialization). -/
def wfNodeB : Node → Bool
  | .text s => !s.data.isEmpty
  | .elem tag cs => validNameB tag && wfListB cs

def wfListB : List Node → Bool
  | [] => true
  | n :: rest =>
    wfNodeB n && wfListB rest &&
      (match n, rest with
       | .text _, .text _ :: _ => false
       | _, _ => true)
end

/-- Discriminator for element nodes. -/
def isElemNode : Node → Bool
  | .elem _ _ => true
  | .text _ => false

/-- Primitive template kinds whose coercion is total on every input. -/
def isTotalPrimB : Template → Bool
  | .tboolean => true
  | .tinteger => true
  | .tnumber => true
  | _ => false

/-- The README example template:
`Object({a: Number(), b: Boolean(), c: Array("number", Number())})`. -/
def exTemplate : Template :=
  .tobject [("a", .tnumber), ("b", .tboolean), ("c", .tarray "number" .tnumber)] "Object"

/-- The README example data: `{a: 15, b: true, c: [3, 5]}`. -/
def exData : JsValue :=
  .obj "Object" [("a", .num (some 15)), ("b", .bool true),
    ("c", .arr [.num (some 3), .num (some 5)])]


/-! ## Generic lemmas about lookup, takeWhile and dropWhile -/

theorem lookupA_append {α : Type} (l1 l2 : List (String × α)) (n : String) :
    lookupA (l1 ++ l2) n =
      match lookupA l1 n with
      | some x => some x
      | none => lookupA l2 n := by
  induction l1 with
  | nil => simp [lookupA]
  | cons p rest ih =>
    obtain ⟨m, v⟩ := p
    by_cases h : m = n <;> simp [lookupA, h, ih]

theorem lookupA_eq_none {α : Type} (l : List (String × α)) (n : String) :
    lookupA l n = none ↔ n ∉ l.map Prod.fst := by
  induction l with
  | nil => simp [lookupA]
  | cons p rest ih =>
    obtain ⟨m, v⟩ := p
    by_cases h : m = n
    · subst h
      simp [lookupA]
    · simp [lookupA, h, ih, Ne.symm h]

theorem lookupA_isSome {α : Type} (l : List (String × α)) (n : String) :
    (lookupA l n).isSome = true ↔ n ∈ l.map Prod.fst := by
  rcases h : lookupA l n with _ | x
  · simpa [h] using (lookupA_eq_none l n).mp h
  · simp only [Option.isSome_some, true_iff]
    by_contra hc
    rw [← lookupA_eq_none l n] at hc
    simp [h] at hc

theorem takeWhile_append_stop {α : Type} (p : α → Bool) (l1 : List α) (c : α) (l2 : List α)
    (h1 : ∀ x ∈ l1, p x = true) (h2 : p c = false) :
    (l1 ++ c :: l2).takeWhile p = l1 := by
  induction l1 with
  | nil => simp [List.takeWhile_cons, h2]
  | cons a l ih =>
    have ha : p a = true := h1 a (List.mem_cons_self a l)
    simp only [List.cons_append, List.takeWhile_cons, ha, if_true]
    exact congrArg (a :: ·) (ih (fun x hx => h1 x (List.mem_cons_of_mem a hx)))

theorem dropWhile_append_stop {α : Type} (p : α → Bool) (l1 : List α) (c : α) (l2 : List α)
    (h1 : ∀ x ∈ l1, p x = true) (h2 : p c = false) :
    (l1 ++ c :: l2).dropWhile p = c :: l2 := by
  induction l1 with
  | nil => simp [List.dropWhile_cons, h2]
  | cons a l ih =>
    have ha : p a = true := h1 a (List.mem_cons_self a l)
    simp only [List.cons_append, List.dropWhile_cons, ha, if_true]
    exact ih (fun x hx => h1 x (List.mem_cons_of_mem a hx))

theorem takeWhile_all {α : Type} (p : α → Bool) (l : List α)
    (h : ∀ x ∈ l, p x = true) : l.takeWhile p = l := by
  induction l with
  | nil => rfl
  | cons a rest ih =>
    have ha : p a = true := h a (List.mem_cons_self a rest)
    simp only [List.takeWhile_cons, ha, if_true, List.cons.injEq, true_and]
    exact ih (fun x hx => h x (List.mem_cons_of_mem a hx))

/-! ## Decimal printing and reparsing -/

theorem digitChar_facts (d : Nat) (h : d < 10) :
    isDigitChar (digitChar d) = true ∧ isWsChar (digitChar d) = false ∧
    digitChar d ≠ '-' ∧ digitChar d ≠ '+' ∧ digitVal (digitChar d) = d := by
  interval_cases d <;> refine ⟨by decide, by decide, by decide, by decide, by decide⟩

theorem natDigitsAux_irrel (f1 : Nat) : ∀ (f2 n : Nat), n < f1 → n < f2 →
    natDigitsAux f1 n = natDigitsAux f2 n := by
  induction f1 with
  | zero => intro f2 n h1; omega
  | succ g1 ih =>
    intro f2 n h1 h2
    match f2 with
    | 0 => omega
    | g2 + 1 =>
      simp only [natDigitsAux]
      by_cases hn : n < 10
      · simp [hn]
      · have hd : n / 10 < n := Nat.div_lt_self (by omega) (by omega)
        simp only [hn, if_false]
        rw [ih g2 (n / 10) (by omega) (by omega)]

theorem natDigits_ne_nil (n : Nat) : natDigits n ≠ [] := by
  unfold natDigits natDigitsAux
  by_cases hn : n < 10 <;> simp [hn]

theorem natDigits_eq (n : Nat) (hn : ¬ n < 10) :
    natDigits n = natDigits (n / 10) ++ [digitChar (n % 10)] := by
  have hd : n / 10 < n := Nat.div_lt_self (by omega) (by omega)
  unfold natDigits
  conv_lhs => rw [natDigitsAux]
  simp only [hn, if_false]
  rw [natDigitsAux_irrel n (n / 10 + 1) (n / 10) (by omega) (by omega)]

theorem natDigits_small (n : Nat) (hn : n < 10) : natDigits n = [digitChar n] := by
  unfold natDigits natDigitsAux
  simp [hn]

theorem natDigits_all_digits (n : Nat) : ∀ c ∈ natDigits n, isDigitChar c = true := by
  induction n using Nat.strong_induction_on with
  | _ n ih =>
    by_cases hn : n < 10
    · rw [natDigits_small n hn]
      intro c hc
      rw [List.mem_singleton] at hc
      subst hc
      exact (digitChar_facts n hn).1
    · rw [natDigits_eq n hn]
      intro c hc
      rcases List.mem_append.mp hc with h | h
      · exact ih (n / 10) (Nat.div_lt_self (by omega) (by omega)) c h
      · rw [List.mem_singleton] at h
        subst h
        exact (digitChar_facts (n % 10) (Nat.mod_lt n (by omega))).1

theorem digitsVal_natDigits (n : Nat) : digitsVal (natDigits n) = n := by
  induction n using Nat.strong_induction_on with
  | _ n ih =>
    by_cases hn : n < 10
    · rw [natDigits_small n hn]
      simp [digitsVal, (digitChar_facts n hn).2.2.2.2]
    · rw [natDigits_eq n hn]
      unfold digitsVal
      rw [List.foldl_append]
      have h1 : List.foldl (fun a c => a * 10 + digitVal c) 0 (natDigits (n / 10)) = n / 10 :=
        ih (n / 10) (Nat.div_lt_self (by omega) (by omega))
      rw [h1]
      simp only [List.foldl_cons, List.foldl_nil,
        (digitChar_facts (n % 10) (Nat.mod_lt n (by omega))).2.2.2.2]
      omega

theorem parseNatPart_natDigits (m : Nat) : parseNatPart (natDigits m) = some m := by
  unfold parseNatPart
  rw [takeWhile_all isDigitChar (natDigits m) (natDigits_all_digits m)]
  simp [List.isEmpty_iff, natDigits_ne_nil m, digitsVal_natDigits m]


theorem stringMk_data (s : String) : String.mk s.data = s := rfl

theorem digit_not_ws (c : Char) (h : isDigitChar c = true) : isWsChar c = false := by
  unfold isWsChar
  have h1 : c ≠ ' ' := by rintro rfl; exact absurd h (by decide)
  have h2 : c ≠ '\t' := by rintro rfl; exact absurd h (by decide)
  have h3 : c ≠ '\n' := by rintro rfl; exact absurd h (by decide)
  have h4 : c ≠ '\r' := by rintro rfl; exact absurd h (by decide)
  simp [h1, h2, h3, h4]

theorem digit_ne_dash (c : Char) (h : isDigitChar c = true) : c ≠ '-' := by
  rintro rfl; exact absurd h (by decide)

theorem digit_ne_plus (c : Char) (h : isDigitChar c = true) : c ≠ '+' := by
  rintro rfl; exact absurd h (by decide)

theorem parseIntChars_natDigits (m : Nat) :
    parseIntChars (natDigits m) = some (m : Int) := by
  obtain ⟨c, rest, hE⟩ := List.exists_cons_of_ne_nil (natDigits_ne_nil m)
  have hdig : isDigitChar c = true := by
    apply natDigits_all_digits m
    rw [hE]
    exact List.mem_cons_self _ _
  unfold parseIntChars
  rw [hE]
  simp only [List.dropWhile_cons, digit_not_ws c hdig, Bool.false_eq_true, if_false]
  simp only [digit_ne_dash c hdig, digit_ne_plus c hdig, if_false]
  rw [← hE, parseNatPart_natDigits]
  rfl

theorem parseIntChars_intToDec (i : Int) : parseIntChars (intToDec i) = some i := by
  unfold intToDec
  by_cases h : i < 0
  · simp only [if_pos h]
    unfold parseIntChars
    have hd : List.dropWhile isWsChar ('-' :: natDigits i.natAbs) = '-' :: natDigits i.natAbs := by
      rw [List.dropWhile_cons, if_neg (by decide)]
    rw [hd]
    simp [parseNatPart_natDigits]
    rw [abs_of_neg h, neg_neg]
  · simp only [if_neg h]
    rw [parseIntChars_natDigits]
    congr 1
    omega

theorem parseFloatChars_eq_parseIntChars (cs : List Char) :
    parseFloatChars cs = parseIntChars cs := rfl

theorem parseIntJs_num (j : Option Int) : parseIntJs (.num j) = j := by
  cases j with
  | none => decide
  | some i =>
    simp only [parseIntJs, jsToString, numToString]
    exact parseIntChars_intToDec i

theorem parseFloatJs_num (j : Option Int) : parseFloatJs (.num j) = j := by
  cases j with
  | none => decide
  | some i =>
    simp only [parseFloatJs, jsToString, numToString, parseFloatChars_eq_parseIntChars]
    exact parseIntChars_intToDec i

theorem parseBooleanJs_bool (b : Bool) : parseBooleanJs (.bool b) = b := by
  cases b <;> decide

theorem parseIntJs_str_num (j : Option Int) :
    parseIntJs (.str (numToString j)) = j := by
  cases j with
  | none => decide
  | some i =>
    simp only [parseIntJs, jsToString, numToString]
    exact parseIntChars_intToDec i

theorem parseFloatJs_str_num (j : Option Int) :
    parseFloatJs (.str (numToString j)) = j := by
  cases j with
  | none => decide
  | some i =>
    simp only [parseFloatJs, jsToString, numToString, parseFloatChars_eq_parseIntChars]
    exact parseIntChars_intToDec i

theorem parseBooleanJs_str_bool (b : Bool) :
    parseBooleanJs (.str (jsToString (.bool b))) = b := by
  cases b <;> decide

theorem textContent_setText (name s : String) :
    textContent (.elem name (setTextContent s)) = s := by
  unfold setTextContent
  by_cases h : s = ""
  · subst h
    simp [textContent, textContentList]
  · simp [h, textContent, textContentList, stringMk_data]


/-! ## Native ingestion on matching values: success, round trip, conformance -/

mutual
theorem fromJs_ok_of_matches : ∀ (t : Template) (v : JsValue),
    matchesB t v = true → nodupKeysB t = true →
    ∃ d, fromJs t v = .ok d ∧ toJs d = retag t v ∧ Conforms t d
  | .tobject props c, .obj ctor fields, hm, hn => by
    simp only [matchesB] at hm
    simp only [nodupKeysB] at hn
    obtain ⟨ds, hok, htj, hcf⟩ :=
      fromJsFields_ok_of_matches props fields ctor fields hm hn (fun m _ => rfl)
    refine ⟨.dobject (.tobject props c) ds, ?_, ?_, ?_⟩
    · simp [fromJs, hok]
    · simp [toJs, objectTypeOf, htj, retag]
    · exact Conforms.obj hcf
  | .tobject _ _, .undef, hm, _ => by simp [matchesB] at hm
  | .tobject _ _, .bool _, hm, _ => by simp [matchesB] at hm
  | .tobject _ _, .num _, hm, _ => by simp [matchesB] at hm
  | .tobject _ _, .str _, hm, _ => by simp [matchesB] at hm
  | .tobject _ _, .arr _, hm, _ => by simp [matchesB] at hm
  | .tarray nm t', .arr items, hm, hn => by
    simp only [matchesB] at hm
    simp only [nodupKeysB] at hn
    obtain ⟨ds, hok, htj, hcf⟩ := fromJsItems_ok_of_matches t' items hm hn
    refine ⟨.darray (.tarray nm t') ds, ?_, ?_, ?_⟩
    · simp [fromJs, hok]
    · simp [toJs, htj, retag]
    · exact Conforms.arr hcf
  | .tarray _ _, .undef, hm, _ => by simp [matchesB] at hm
  | .tarray _ _, .bool _, hm, _ => by simp [matchesB] at hm
  | .tarray _ _, .num _, hm, _ => by simp [matchesB] at hm
  | .tarray _ _, .str _, hm, _ => by simp [matchesB] at hm
  | .tarray _ _, .obj _ _, hm, _ => by simp [matchesB] at hm
  | .tboolean, .bool b, _, _ => by
    refine ⟨.dvalue .tboolean (.bool (parseBooleanJs (.bool b))), by simp [fromJs], ?_, ?_⟩
    · simp [toJs, parseBooleanJs_bool, retag]
    · exact Conforms.boolv
  | .tboolean, .undef, hm, _ => by simp [matchesB] at hm
  | .tboolean, .num _, hm, _ => by simp [matchesB] at hm
  | .tboolean, .str _, hm, _ => by simp [matchesB] at hm
  | .tboolean, .arr _, hm, _ => by simp [matchesB] at hm
  | .tboolean, .obj _ _, hm, _ => by simp [matchesB] at hm
  | .tinteger, .num j, _, _ => by
    refine ⟨.dvalue .tinteger (.num (parseIntJs (.num j))), by simp [fromJs], ?_, ?_⟩
    · simp [toJs, parseIntJs_num, retag]
    · exact Conforms.intv
  | .tinteger, .undef, hm, _ => by simp [matchesB] at hm
  | .tinteger, .bool _, hm, _ => by simp [matchesB] at hm
  | .tinteger, .str _, hm, _ => by simp [matchesB] at hm
  | .tinteger, .arr _, hm, _ => by simp [matchesB] at hm
  | .tinteger, .obj _ _, hm, _ => by simp [matchesB] at hm
  | .tnumber, .num j, _, _ => by
    refine ⟨.dvalue .tnumber (.num (parseFloatJs (.num j))), by simp [fromJs], ?_, ?_⟩
    · simp [toJs, parseFloatJs_num, retag]
    · exact Conforms.numv
  | .tnumber, .undef, hm, _ => by simp [matchesB] at hm
  | .tnumber, .bool _, hm, _ => by simp [matchesB] at hm
  | .tnumber, .str _, hm, _ => by simp [matchesB] at hm
  | .tnumber, .arr _, hm, _ => by simp [matchesB] at hm
  | .tnumber, .obj _ _, hm, _ => by simp [matchesB] at hm
  | .tstring, .str s, _, _ => by
    refine ⟨.dvalue .tstring (.str s), by simp [fromJs, jsToString], ?_, ?_⟩
    · simp [toJs, retag]
    · exact Conforms.strv
  | .tstring, .undef, hm, _ => by simp [matchesB] at hm
  | .tstring, .bool _, hm, _ => by simp [matchesB] at hm
  | .tstring, .num _, hm, _ => by simp [matchesB] at hm
  | .tstring, .arr _, hm, _ => by simp [matchesB] at hm
  | .tstring, .obj _ _, hm, _ => by simp [matchesB] at hm
termination_by t v => (sizeOf t, sizeOf v)

theorem fromJsFields_ok_of_matches : ∀ (props : List (String × Template))
    (fs : List (String × JsValue)) (ctor : String) (fields : List (String × JsValue)),
    matchesFieldsB props fs = true → nodupFieldsB props = true →
    (∀ m : String, (lookupA props m).isSome = true → lookupA fields m = lookupA fs m) →
    ∃ ds, fromJsFields props (.obj ctor fields) = .ok ds ∧
      toJsFields ds = retagFields props fs ∧ ConformsFields props ds
  | [], [], _, _, _, _, _ => ⟨[], by simp [fromJsFields], by simp [toJsFields, retagFields], .nil⟩
  | [], _ :: _, _, _, hm, _, _ => by simp [matchesFieldsB] at hm
  | (_, _) :: _, [], _, _, hm, _, _ => by simp [matchesFieldsB] at hm
  | (n, t) :: ps, (m, fv) :: fs', ctor, fields, hm, hn, hlk => by
    simp only [matchesFieldsB, Bool.and_eq_true, decide_eq_true_eq] at hm
    obtain ⟨⟨hnm, hmv⟩, hrest⟩ := hm
    subst hnm
    simp only [nodupFieldsB, Bool.and_eq_true, Option.isNone_iff_eq_none] at hn
    obtain ⟨⟨hfresh, hnt⟩, hnps⟩ := hn
    have hself : (lookupA ((n, t) :: ps) n).isSome = true := by simp [lookupA]
    have hfv : lookupA fields n = some fv := by
      rw [hlk n hself]
      simp [lookupA]
    obtain ⟨d, hdok, hdtj, hdcf⟩ := fromJs_ok_of_matches t fv hmv hnt
    have hlk' : ∀ m2 : String, (lookupA ps m2).isSome = true →
        lookupA fields m2 = lookupA fs' m2 := by
      intro m2 hm2
      have hne : ¬ n = m2 := by
        intro he
        subst he
        rw [hfresh] at hm2
        simp at hm2
      have hup : (lookupA ((n, t) :: ps) m2).isSome = true := by
        simp only [lookupA, if_neg hne]
        exact hm2
      rw [hlk m2 hup]
      simp [lookupA, hne]
    obtain ⟨ds', hok', htj', hcf'⟩ :=
      fromJsFields_ok_of_matches ps fs' ctor fields hrest hnps hlk'
    refine ⟨(n, d) :: ds', ?_, ?_, ?_⟩
    · simp [fromJsFields, jsGet, hfv, hdok, hok']
    · simp [toJsFields, hdtj, htj', retagFields]
    · exact ConformsFields.cons hdcf hcf'
termination_by props _ _ _ => (sizeOf props, 0)

theorem fromJsItems_ok_of_matches : ∀ (t : Template) (items : List JsValue),
    matchesItemsB t items = true → nodupKeysB t = true →
    ∃ ds, fromJsItems t items = .ok ds ∧
      toJsItems ds = retagItems t items ∧ ConformsItems t ds
  | _, [], _, _ => ⟨[], by simp [fromJsItems], by simp [toJsItems, retagItems], .nil⟩
  | t, v :: vs, hm, hn => by
    simp only [matchesItemsB, Bool.and_eq_true] at hm
    obtain ⟨hv, hvs⟩ := hm
    obtain ⟨d, hdok, hdtj, hdcf⟩ := fromJs_ok_of_matches t v hv hn
    obtain ⟨ds', hok', htj', hcf'⟩ := fromJsItems_ok_of_matches t vs hvs hn
    refine ⟨d :: ds', ?_, ?_, ?_⟩
    · simp [fromJsItems, hdok, hok']
    · simp [toJsItems, hdtj, htj', retagItems]
    · exact ConformsItems.cons hdcf hcf'
termination_by t items => (sizeOf t, sizeOf items)
end


/-! ## Tree-level round trip: `fromXml` after `toXml` on conforming entities -/

theorem objChildName_toXml (d : DEntity) (name : String) :
    objChildName (toXml d name) = name := by
  cases d <;> rfl

theorem isElemNamed_toXml (nm : String) (d : DEntity) :
    isElemNamed nm (toXml d nm) = true := by
  cases d <;> simp [toXml, isElemNamed]

mutual
theorem roundXml : ∀ {t : Template} {d : DEntity}, Conforms t d →
    nodupKeysB t = true → ∀ name : String, fromXml t (toXml d name) = d
  | _, _, @Conforms.obj props c dprops hf, hn, name => by
    simp only [nodupKeysB] at hn
    simp only [toXml, fromXml]
    rw [roundXmlFields hf hn props [] (fun n _ => rfl) (fun n _ => rfl)]
    simp
  | _, _, @Conforms.arr nm t items hi, hn, name => by
    simp only [nodupKeysB] at hn
    simp only [toXml, fromXml, itemNameOf]
    rw [roundXmlItems hi hn nm]
  | _, _, @Conforms.boolv b, _, name => by
    simp only [toXml, fromXml, textContent_setText name (jsToString (.bool b))]
    rw [parseBooleanJs_str_bool]
  | _, _, @Conforms.intv j, _, name => by
    simp only [toXml, fromXml, textContent_setText name (jsToString (.num j))]
    simp only [jsToString]
    rw [parseIntJs_str_num]
  | _, _, @Conforms.numv j, _, name => by
    simp only [toXml, fromXml, textContent_setText name (jsToString (.num j))]
    simp only [jsToString]
    rw [parseFloatJs_str_num]
  | _, _, @Conforms.strv str, _, name => by
    simp only [toXml, fromXml, textContent_setText name (jsToString (.str str))]
    simp [jsToString]

theorem roundXmlFields : ∀ {ps : List (String × Template)} {ds : List (String × DEntity)},
    ConformsFields ps ds → nodupFieldsB ps = true →
    ∀ (props : List (String × Template)) (acc : List (String × DEntity)),
    (∀ n : String, n ∈ ps.map Prod.fst → lookupA props n = lookupA ps n) →
    (∀ n : String, n ∈ ps.map Prod.fst → lookupA acc n = none) →
    fromXmlFold props (toXmlFields ds) acc = acc ++ ds
  | _, _, .nil, _, props, acc, _, _ => by simp [toXmlFields, fromXmlFold]
  | _, _, @ConformsFields.cons n t d ps ds hc hcf, hn, props, acc, hlkp, hacc => by
    simp only [nodupFieldsB, Bool.and_eq_true, Option.isNone_iff_eq_none] at hn
    obtain ⟨⟨hfresh, hnt⟩, hnps⟩ := hn
    have hmemn : n ∈ ((n, t) :: ps).map Prod.fst := by simp
    have haccn : lookupA acc n = none := hacc n hmemn
    have hpropsn : lookupA props n = some t := by
      rw [hlkp n hmemn]
      simp [lookupA]
    have hfx : fromXml t (toXml d n) = d := roundXml hc hnt n
    have hnotps : n ∉ ps.map Prod.fst := (lookupA_eq_none ps n).mp hfresh
    simp only [toXmlFields, fromXmlFold, objChildName_toXml, haccn, hpropsn, hfx]
    rw [roundXmlFields hcf hnps props (acc ++ [(n, d)]) ?_ ?_]
    · rw [List.append_assoc]
      rfl
    · intro m hmem
      have hne : ¬ n = m := fun he => hnotps (he ▸ hmem)
      rw [hlkp m (List.mem_cons_of_mem _ hmem)]
      simp [lookupA, hne]
    · intro m hmem
      have hne : ¬ n = m := fun he => hnotps (he ▸ hmem)
      rw [lookupA_append]
      rw [hacc m (List.mem_cons_of_mem _ hmem)]
      simp [lookupA, hne]

theorem roundXmlItems : ∀ {t : Template} {ds : List DEntity},
    ConformsItems t ds → nodupKeysB t = true →
    ∀ nm : String, fromXmlItems nm t (toXmlItems nm ds) = ds
  | _, _, .nil, _, nm => by simp [toXmlItems, fromXmlItems]
  | _, _, @ConformsItems.cons t d ds hc hci, hn, nm => by
    simp only [toXmlItems, fromXmlItems, isElemNamed_toXml, if_true]
    rw [roundXml hc hn nm, roundXmlItems hci hn nm]
end


/-! ## Wellformedness of rendered trees and text escaping -/

theorem string_ne_empty_data {s : String} (h : s ≠ "") : s.data.isEmpty = false := by
  cases s with
  | mk l =>
    cases l with
    | nil => exact absurd rfl h
    | cons c cs => rfl

theorem wfListB_cons_elem (nd : Node) (rest : List Node) (h : isElemNode nd = true) :
    wfListB (nd :: rest) = (wfNodeB nd && wfListB rest) := by
  cases nd with
  | elem tag cs => simp [wfListB]
  | text s => simp [isElemNode] at h

theorem isElemNode_toXml (d : DEntity) (name : String) : isElemNode (toXml d name) = true := by
  cases d <;> rfl

mutual
theorem wf_toXml : ∀ {t : Template} {d : DEntity}, Conforms t d → validNamesB t = true →
    ∀ name : String, validNameB name = true → wfNodeB (toXml d name) = true
  | _, _, @Conforms.obj props c dprops hf, hv, name, hname => by
    simp only [validNamesB] at hv
    simp only [toXml, wfNodeB, Bool.and_eq_true]
    exact ⟨hname, wf_toXmlFields hf hv⟩
  | _, _, @Conforms.arr nm t items hi, hv, name, hname => by
    simp only [validNamesB, Bool.and_eq_true] at hv
    simp only [toXml, wfNodeB, Bool.and_eq_true, itemNameOf]
    exact ⟨hname, wf_toXmlItems hi hv.2 nm hv.1⟩
  | _, _, @Conforms.boolv b, _, name, hname => by
    simp only [toXml, wfNodeB, Bool.and_eq_true]
    refine ⟨hname, ?_⟩
    cases b <;> simp [setTextContent, jsToString, wfListB, wfNodeB]
  | _, _, @Conforms.intv j, _, name, hname => by
    simp only [toXml, wfNodeB, Bool.and_eq_true]
    refine ⟨hname, ?_⟩
    unfold setTextContent
    by_cases h : jsToString (.num j) = ""
    · simp [h, wfListB]
    · simp [h, wfListB, wfNodeB, string_ne_empty_data h]
  | _, _, @Conforms.numv j, _, name, hname => by
    simp only [toXml, wfNodeB, Bool.and_eq_true]
    refine ⟨hname, ?_⟩
    unfold setTextContent
    by_cases h : jsToString (.num j) = ""
    · simp [h, wfListB]
    · simp [h, wfListB, wfNodeB, string_ne_empty_data h]
  | _, _, @Conforms.strv str, _, name, hname => by
    simp only [toXml, wfNodeB, Bool.and_eq_true]
    refine ⟨hname, ?_⟩
    unfold setTextContent
    by_cases h : jsToString (.str str) = ""
    · simp [h, wfListB]
    · simp [h, wfListB, wfNodeB, string_ne_empty_data h]

theorem wf_toXmlFields : ∀ {ps : List (String × Template)} {ds : List (String × DEntity)},
    ConformsFields ps ds → validNamesFieldsB ps = true → wfListB (toXmlFields ds) = true
  | _, _, .nil, _ => rfl
  | _, _, @ConformsFields.cons n t d ps ds hc hcf, hv => by
    simp only [validNamesFieldsB, Bool.and_eq_true] at hv
    obtain ⟨⟨hn, hvt⟩, hvps⟩ := hv
    simp only [toXmlFields]
    rw [wfListB_cons_elem _ _ (isElemNode_toXml d n)]
    simp only [Bool.and_eq_true]
    exact ⟨wf_toXml hc hvt n hn, wf_toXmlFields hcf hvps⟩

theorem wf_toXmlItems : ∀ {t : Template} {ds : List DEntity},
    ConformsItems t ds → validNamesB t = true →
    ∀ nm : String, validNameB nm = true → wfListB (toXmlItems nm ds) = true
  | _, _, .nil, _, nm, _ => rfl
  | _, _, @ConformsItems.cons t d ds hc hci, hv, nm, hnm => by
    simp only [toXmlItems]
    rw [wfListB_cons_elem _ _ (isElemNode_toXml d nm)]
    simp only [Bool.and_eq_true]
    exact ⟨wf_toXml hc hv nm hnm, wf_toXmlItems hci hv nm hnm⟩
end

theorem nameChar_ne_slash {c : Char} (h : isNameChar c = true) : c ≠ '/' := by
  rintro rfl; exact absurd h (by decide)

theorem escapeChar_ne_nil (c : Char) : escapeChar c ≠ [] := by
  unfold escapeChar
  by_cases h1 : c = '&'
  · simp [h1]
  · by_cases h2 : c = '<'
    · simp [h1, h2]
    · by_cases h3 : c = '>' <;> simp [h1, h2, h3]

theorem escapeChars_no_lt (l : List Char) : ∀ x ∈ escapeChars l, x ≠ '<' := by
  induction l with
  | nil => simp [escapeChars]
  | cons c rest ih =>
    intro x hx
    simp only [escapeChars, List.mem_append] at hx
    rcases hx with hx | hx
    · unfold escapeChar at hx
      by_cases h1 : c = '&'
      · simp [h1] at hx
        rcases hx with rfl | rfl | rfl | rfl | rfl <;> decide
      · by_cases h2 : c = '<'
        · simp [h1, h2] at hx
          rcases hx with rfl | rfl | rfl | rfl <;> decide
        · by_cases h3 : c = '>'
          · simp [h1, h2, h3] at hx
            rcases hx with rfl | rfl | rfl | rfl <;> decide
          · simp [h1, h2, h3] at hx
            subst hx
            exact h2
    · exact ih x hx


theorem decodeEntitiesAux_escape (l : List Char) : ∀ fuel : Nat,
    (escapeChars l).length < fuel → decodeEntitiesAux fuel (escapeChars l) = some l := by
  induction l with
  | nil =>
    intro fuel hf
    cases fuel with
    | zero => omega
    | succ f => rfl
  | cons c rest ih =>
    intro fuel hf
    simp only [escapeChars] at hf ⊢
    by_cases h1 : c = '&'
    · subst h1
      rw [show escapeChar '&' = ['&', 'a', 'm', 'p', ';'] from rfl] at hf ⊢
      cases fuel with
      | zero => exact absurd hf (Nat.not_lt_zero _)
      | succ f =>
        have hlen : (escapeChars rest).length < f := by
          simp only [List.length_append, List.length_cons] at hf
          omega
        simp only [List.cons_append, List.nil_append, decodeEntitiesAux, if_pos rfl]
        simp [List.takeWhile_cons, List.dropWhile_cons, entityChar, ih f hlen]
    · by_cases h2 : c = '<'
      · subst h2
        rw [show escapeChar '<' = ['&', 'l', 't', ';'] from rfl] at hf ⊢
        cases fuel with
        | zero => exact absurd hf (Nat.not_lt_zero _)
        | succ f =>
          have hlen : (escapeChars rest).length < f := by
            simp only [List.length_append, List.length_cons] at hf
            omega
          simp only [List.cons_append, List.nil_append, decodeEntitiesAux, if_pos rfl]
          simp [List.takeWhile_cons, List.dropWhile_cons, entityChar, ih f hlen]
      · by_cases h3 : c = '>'
        · subst h3
          rw [show escapeChar '>' = ['&', 'g', 't', ';'] from rfl] at hf ⊢
          cases fuel with
          | zero => exact absurd hf (Nat.not_lt_zero _)
          | succ f =>
            have hlen : (escapeChars rest).length < f := by
              simp only [List.length_append, List.length_cons] at hf
              omega
            simp only [List.cons_append, List.nil_append, decodeEntitiesAux, if_pos rfl]
            simp [List.takeWhile_cons, List.dropWhile_cons, entityChar, ih f hlen]
        · rw [show escapeChar c = [c] from by simp [escapeChar, h1, h2, h3]] at hf ⊢
          cases fuel with
          | zero => exact absurd hf (Nat.not_lt_zero _)
          | succ f =>
            have hlen : (escapeChars rest).length < f := by
              simp only [List.length_append, List.length_cons] at hf
              omega
            simp only [List.cons_append, List.nil_append, decodeEntitiesAux, if_neg h1]
            simp [ih f hlen]

theorem decodeEntities_escape (l : List Char) :
    decodeEntities (escapeChars l) = some l :=
  decodeEntitiesAux_escape l ((escapeChars l).length + 1) (by omega)


/-! ## Parser inverts the serializer on well-formed trees -/

theorem validNameB_ne_nil {s : String} (h : validNameB s = true) : s.data ≠ [] := by
  simp only [validNameB, Bool.and_eq_true] at h
  intro he
  rw [he] at h
  simp at h

theorem validNameB_isEmpty_false {s : String} (h : validNameB s = true) :
    s.data.isEmpty = false := by
  have := validNameB_ne_nil h
  cases hd : s.data with
  | nil => exact absurd hd this
  | cons c cs => rfl

theorem validNameB_all {s : String} (h : validNameB s = true) :
    ∀ c ∈ s.data, isNameChar c = true := by
  simp only [validNameB, Bool.and_eq_true, List.all_eq_true] at h
  exact h.2

theorem serNode_elem_decomp (tag : String) (cs : List Node) :
    ∃ Z : List Char, serNode (.elem tag cs) = '<' :: (tag.data ++ Z) := by
  unfold serNode
  by_cases h : cs.isEmpty
  · exact ⟨['/', '>'], by simp [h]⟩
  · exact ⟨'>' :: (serNodes cs ++ '<' :: '/' :: (tag.data ++ ['>'])), by simp [h]⟩

theorem serNode_len_ge (tag : String) (cs : List Node) (hname : validNameB tag = true) :
    4 ≤ (serNode (.elem tag cs)).length := by
  have h1 : 1 ≤ tag.data.length := List.length_pos.mpr (validNameB_ne_nil hname)
  unfold serNode
  by_cases h : cs.isEmpty = true
  · rw [if_pos h]
    simp only [List.length_cons, List.length_append]
    omega
  · rw [if_neg h]
    simp only [List.length_cons, List.length_append]
    omega

theorem escapeChar_head (c : Char) :
    ∃ ec ecs, escapeChar c = ec :: ecs ∧ ¬ ec = '<' := by
  unfold escapeChar
  by_cases h1 : c = '&'
  · exact ⟨'&', ['a', 'm', 'p', ';'], by simp [h1], by decide⟩
  · by_cases h2 : c = '<'
    · exact ⟨'&', ['l', 't', ';'], by simp [h1, h2], by decide⟩
    · by_cases h3 : c = '>'
      · exact ⟨'&', ['g', 't', ';'], by simp [h1, h2, h3], by decide⟩
      · exact ⟨c, [], by simp [h1, h2, h3], h2⟩

theorem escapeChars_len_ge (c : Char) (rest : List Char) :
    1 ≤ (escapeChars (c :: rest)).length := by
  obtain ⟨ec, ecs, he, _⟩ := escapeChar_head c
  simp [escapeChars, he]

mutual
theorem parse_serNode : ∀ (tag : String) (cs : List Node) (rest : List Char) (fuel : Nat),
    wfNodeB (.elem tag cs) = true →
    (serNode (.elem tag cs) ++ rest).length < fuel →
    parseNodeAux fuel (serNode (.elem tag cs) ++ rest) = some (.elem tag cs, rest)
  | tag, [], rest, fuel, hwf, hlen => by
    simp only [wfNodeB, Bool.and_eq_true] at hwf
    obtain ⟨hname, _⟩ := hwf
    cases fuel with
    | zero => exact absurd hlen (Nat.not_lt_zero _)
    | succ f =>
      simp only [serNode, List.isEmpty_nil, if_true] at hlen ⊢
      simp only [List.cons_append, List.append_assoc, List.nil_append] at hlen ⊢
      simp only [parseNodeAux, if_pos rfl]
      rw [takeWhile_append_stop isNameChar tag.data '/' ('>' :: rest)
            (validNameB_all hname) (by decide),
          dropWhile_append_stop isNameChar tag.data '/' ('>' :: rest)
            (validNameB_all hname) (by decide)]
      simp [validNameB_isEmpty_false hname, stringMk_data]
  | tag, n0 :: cs', rest, fuel, hwf, hlen => by
    simp only [wfNodeB, Bool.and_eq_true] at hwf
    obtain ⟨hname, hwfl⟩ := hwf
    cases fuel with
    | zero => exact absurd hlen (Nat.not_lt_zero _)
    | succ f =>
      simp only [serNode, List.isEmpty_cons, Bool.false_eq_true, if_false] at hlen ⊢
      simp only [List.cons_append, List.append_assoc, List.nil_append] at hlen ⊢
      simp only [parseNodeAux, if_pos rfl]
      rw [takeWhile_append_stop isNameChar tag.data '>'
            (serNodes (n0 :: cs') ++ '<' :: '/' :: (tag.data ++ '>' :: rest))
            (validNameB_all hname) (by decide),
          dropWhile_append_stop isNameChar tag.data '>'
            (serNodes (n0 :: cs') ++ '<' :: '/' :: (tag.data ++ '>' :: rest))
            (validNameB_all hname) (by decide)]
      have hrec := parse_serNodes (n0 :: cs') (tag.data ++ '>' :: rest) f hwfl (by
        simp only [List.length_append, List.length_cons] at hlen ⊢
        omega)
      simp only [validNameB_isEmpty_false hname, Bool.false_eq_true, if_false, hrec]
      rw [takeWhile_append_stop isNameChar tag.data '>' rest
            (validNameB_all hname) (by decide),
          dropWhile_append_stop isNameChar tag.data '>' rest
            (validNameB_all hname) (by decide)]
      simp [stringMk_data]
termination_by tag cs rest fuel => sizeOf cs + 1

theorem parse_serNodes : ∀ (ns : List Node) (r2 : List Char) (fuel : Nat),
    wfListB ns = true →
    (serNodes ns ++ '<' :: '/' :: r2).length + 1 < fuel →
    parseChildrenAux fuel (serNodes ns ++ '<' :: '/' :: r2) = some (ns, '<' :: '/' :: r2)
  | [], r2, fuel, _, hlen => by
    cases fuel with
    | zero => exact absurd hlen (Nat.not_lt_zero _)
    | succ f =>
      simp only [serNodes, List.nil_append]
      rfl
  | .elem tag' cs' :: ns, r2, fuel, hwf, hlen => by
    simp only [wfListB, Bool.and_eq_true] at hwf
    obtain ⟨⟨hwfe, hwfns⟩, _⟩ := hwf
    cases fuel with
    | zero => exact absurd hlen (Nat.not_lt_zero _)
    | succ f =>
      have hnamev : validNameB tag' = true := by
        simp only [wfNodeB, Bool.and_eq_true] at hwfe
        exact hwfe.1
      obtain ⟨Z, hZ⟩ := serNode_elem_decomp tag' cs'
      obtain ⟨tc, tds, htag⟩ := List.exists_cons_of_ne_nil (validNameB_ne_nil hnamev)
      have htc : isNameChar tc = true := by
        apply validNameB_all hnamev
        rw [htag]
        exact List.mem_cons_self _ _
      simp only [serNodes, List.append_assoc] at hlen ⊢
      rw [hZ] at hlen ⊢
      simp only [List.cons_append, List.append_assoc] at hlen ⊢
      simp only [parseChildrenAux, if_pos rfl]
      rw [htag]
      simp only [List.cons_append, List.head?_cons]
      have htcne : ¬ (some tc = some '/') := by
        simp only [Option.some.injEq]
        exact nameChar_ne_slash htc
      rw [if_neg htcne]
      have hlenN : (serNode (.elem tag' cs') ++
          (serNodes ns ++ '<' :: '/' :: r2)).length < f := by
        rw [hZ]
        simp only [List.length_append, List.length_cons] at hlen ⊢
        omega
      have hrecN := parse_serNode tag' cs' (serNodes ns ++ '<' :: '/' :: r2) f hwfe hlenN
      rw [hZ, htag] at hrecN
      simp only [List.cons_append, List.append_assoc] at hrecN
      rw [hrecN]
      have hlen4 := serNode_len_ge tag' cs' hnamev
      have hrecL := parse_serNodes ns r2 f hwfns (by
        rw [hZ, htag] at hlen4
        simp only [List.length_append, List.length_cons] at hlen hlen4 ⊢
        omega)
      simp [hrecL]
  | .text str :: ns, r2, fuel, hwf, hlen => by
    simp only [wfListB, Bool.and_eq_true] at hwf
    obtain ⟨⟨hwft, hwfns⟩, hadj⟩ := hwf
    cases fuel with
    | zero => exact absurd hlen (Nat.not_lt_zero _)
    | succ f =>
      have hsd : str.data ≠ [] := by
        simp only [wfNodeB, Bool.not_eq_true'] at hwft
        intro he
        rw [he] at hwft
        simp at hwft
      obtain ⟨sc, sd, hS⟩ := List.exists_cons_of_ne_nil hsd
      have hnext : ∃ Z : List Char, serNodes ns ++ '<' :: '/' :: r2 = '<' :: Z := by
        cases ns with
        | nil => exact ⟨'/' :: r2, rfl⟩
        | cons n1 ns1 =>
          cases n1 with
          | elem t1 c1 =>
            obtain ⟨Z1, hZ1⟩ := serNode_elem_decomp t1 c1
            refine ⟨(t1.data ++ Z1) ++ (serNodes ns1 ++ '<' :: '/' :: r2), ?_⟩
            simp only [serNodes, hZ1, List.cons_append, List.append_assoc]
          | text s1 => simp at hadj
      obtain ⟨Z, hZ⟩ := hnext
      obtain ⟨ec, ecs, hec, hecne⟩ := escapeChar_head sc
      simp only [serNodes, List.append_assoc] at hlen ⊢
      rw [hZ] at hlen ⊢
      have hesc : serNode (.text str) = escapeChars str.data := rfl
      rw [hesc] at hlen ⊢
      have hEstruct : escapeChars str.data = ec :: (ecs ++ escapeChars sd) := by
        rw [hS]
        simp only [escapeChars, hec, List.cons_append]
      rw [hEstruct] at hlen ⊢
      simp only [List.cons_append, parseChildrenAux, if_neg hecne]
      have hall : ∀ x ∈ ec :: (ecs ++ escapeChars sd), (fun c => decide (c ≠ '<')) x = true := by
        rw [← hEstruct]
        intro x hx
        simp only [decide_eq_true_eq, ne_eq]
        exact escapeChars_no_lt str.data x hx
      simp only [List.append_assoc]
      have hassoc : ec :: (ecs ++ (escapeChars sd ++ '<' :: Z)) =
          (ec :: (ecs ++ escapeChars sd)) ++ '<' :: Z := by
        simp [List.cons_append, List.append_assoc]
      rw [hassoc]
      rw [takeWhile_append_stop _ (ec :: (ecs ++ escapeChars sd)) '<' Z hall (by decide),
          dropWhile_append_stop _ (ec :: (ecs ++ escapeChars sd)) '<' Z hall (by decide)]
      rw [← hEstruct, decodeEntities_escape str.data]
      have hne : str.data.isEmpty = false := by
        rw [hS]
        rfl
      have hrecL := parse_serNodes ns r2 f hwfns (by
        rw [hZ]
        simp only [List.length_append, List.length_cons] at hlen ⊢
        omega)
      rw [hZ] at hrecL
      simp only [hne, Bool.false_eq_true, if_false, hrecL]
termination_by ns r2 fuel => sizeOf ns
end


/-! ## Top-level string round trip and ingestion-fold lemmas -/

theorem xmlParse_serNode (tag : String) (cs : List Node)
    (hwf : wfNodeB (.elem tag cs) = true) :
    xmlParse (String.mk (serNode (.elem tag cs))) = some (.elem tag cs) := by
  unfold xmlParse
  have h := parse_serNode tag cs [] ((serNode (.elem tag cs)).length + 1) hwf
    (by simp)
  rw [List.append_nil] at h
  have hdata : (String.mk (serNode (.elem tag cs))).data = serNode (.elem tag cs) := rfl
  rw [hdata, h]

theorem toXml_root_decomp (d : DEntity) (name : String) :
    ∃ cs, toXml d name = .elem name cs := by
  cases d <;> exact ⟨_, rfl⟩

theorem fromXmlString_toXmlString (t : Template) (d : DEntity)
    (hc : Conforms t d) (hv : validNamesB t = true) (hn : nodupKeysB t = true) :
    fromXmlString t (toXmlString d "root") = some d := by
  unfold fromXmlString toXmlString
  obtain ⟨cs, hcs⟩ := toXml_root_decomp d "root"
  have hwf : wfNodeB (toXml d "root") = true := wf_toXml hc hv "root" (by decide)
  rw [hcs] at hwf ⊢
  rw [xmlParse_serNode "root" cs hwf]
  rw [← hcs]
  simp [roundXml hc hn "root"]

theorem fromXmlFold_lookup_kept (props : List (String × Template)) (n : String)
    (x : DEntity) : ∀ (children : List Node) (acc : List (String × DEntity)),
    lookupA acc n = some x →
    lookupA (fromXmlFold props children acc) n = some x := by
  intro children
  induction children with
  | nil => intro acc hacc; simpa [fromXmlFold] using hacc
  | cons ch rest ih =>
    intro acc hacc
    rcases hl1 : lookupA acc (objChildName ch) with _ | y <;>
      rcases hl2 : lookupA props (objChildName ch) with _ | t2 <;>
        simp only [fromXmlFold, hl1, hl2]
    · exact ih acc hacc
    · apply ih
      rw [lookupA_append, hacc]
    · exact ih acc hacc
    · exact ih acc hacc

theorem fromXmlFold_none (props : List (String × Template)) (n : String) :
    ∀ (children : List Node) (acc : List (String × DEntity)),
    (∀ ch ∈ children, objChildName ch ≠ n) →
    lookupA acc n = none →
    lookupA (fromXmlFold props children acc) n = none := by
  intro children
  induction children with
  | nil => intro acc _ hacc; simpa [fromXmlFold] using hacc
  | cons ch rest ih =>
    intro acc habs hacc
    have hch : objChildName ch ≠ n := habs ch (List.mem_cons_self _ _)
    have habs' : ∀ c' ∈ rest, objChildName c' ≠ n :=
      fun c' hc' => habs c' (List.mem_cons_of_mem _ hc')
    rcases hl1 : lookupA acc (objChildName ch) with _ | y <;>
      rcases hl2 : lookupA props (objChildName ch) with _ | t2 <;>
        simp only [fromXmlFold, hl1, hl2]
    · exact ih acc habs' hacc
    · apply ih _ habs'
      rw [lookupA_append, hacc]
      simp [lookupA, hch]
    · exact ih acc habs' hacc
    · exact ih acc habs' hacc

theorem fromXmlFold_first (props : List (String × Template)) (n : String) (t : Template)
    (hdecl : lookupA props n = some t) :
    ∀ (pre : List Node) (ch : Node) (post : List Node) (acc : List (String × DEntity)),
    objChildName ch = n →
    (∀ c' ∈ pre, objChildName c' ≠ n) →
    lookupA acc n = none →
    lookupA (fromXmlFold props (pre ++ ch :: post) acc) n = some (fromXml t ch) := by
  intro pre
  induction pre with
  | nil =>
    intro ch post acc hch _ hacc
    simp only [List.nil_append, fromXmlFold, hch, hacc, hdecl]
    apply fromXmlFold_lookup_kept
    rw [lookupA_append, hacc]
    simp [lookupA]
  | cons c' pre' ih =>
    intro ch post acc hch hpre hacc
    have hc' : objChildName c' ≠ n := hpre c' (List.mem_cons_self _ _)
    have hpre' : ∀ x ∈ pre', objChildName x ≠ n :=
      fun x hx => hpre x (List.mem_cons_of_mem _ hx)
    rcases hl1 : lookupA acc (objChildName c') with _ | y <;>
      rcases hl2 : lookupA props (objChildName c') with _ | t2 <;>
        simp only [List.cons_append, fromXmlFold, hl1, hl2]
    · exact ih ch post acc hch hpre' hacc
    · apply ih ch post _ hch hpre'
      rw [lookupA_append, hacc]
      simp [lookupA, hc']
    · exact ih ch post acc hch hpre' hacc
    · exact ih ch post acc hch hpre' hacc

theorem toJsFields_lookup (ds : List (String × DEntity)) (n : String) :
    lookupA (toJsFields ds) n = (lookupA ds n).map toJs := by
  induction ds with
  | nil => simp [toJsFields, lookupA]
  | cons p rest ih =>
    obtain ⟨m, d⟩ := p
    by_cases h : m = n <;> simp [toJsFields, lookupA, h, ih]

theorem toJsFields_keys (ds : List (String × DEntity)) :
    (toJsFields ds).map Prod.fst = ds.map Prod.fst := by
  induction ds with
  | nil => rfl
  | cons p rest ih =>
    obtain ⟨m, d⟩ := p
    simp [toJsFields, ih]

theorem fromJsFields_keys (props : List (String × Template)) (v : JsValue) :
    ∀ ds, fromJsFields props v = .ok ds → ds.map Prod.fst = props.map Prod.fst := by
  induction props with
  | nil =>
    intro ds h
    simp only [fromJsFields] at h
    injection h with h
    rw [← h]
    rfl
  | cons p rest ih =>
    obtain ⟨m, t⟩ := p
    intro ds h
    simp only [fromJsFields] at h
    rcases hg : jsGet v m with e | fv
    · simp [hg] at h
    · simp only [hg] at h
      rcases hd : fromJs t fv with e | d
      · simp [hd] at h
      · simp only [hd] at h
        rcases hr : fromJsFields rest v with e | ds'
        · simp [hr] at h
        · simp only [hr] at h
          injection h with h
          rw [← h]
          simp [ih ds' hr]

theorem fromXmlItems_eq_filter_map (nm : String) (t : Template) (children : List Node) :
    fromXmlItems nm t children = (children.filter (isElemNamed nm)).map (fromXml t) := by
  induction children with
  | nil => rfl
  | cons ch rest ih =>
    by_cases h : isElemNamed nm ch = true <;> simp [fromXmlItems, List.filter_cons, h, ih]

theorem toXmlItems_eq_map (nm : String) (ds : List DEntity) :
    toXmlItems nm ds = ds.map (fun d => toXml d nm) := by
  induction ds with
  | nil => rfl
  | cons d rest ih => simp [toXmlItems, ih]

theorem fromJs_totalPrim {t : Template} (h : isTotalPrimB t = true) (v : JsValue) :
    ∃ d, fromJs t v = .ok d := by
  cases t <;> simp_all [isTotalPrimB, fromJs]

theorem fromJsFields_totalPrim (ctor : String) (fields : List (String × JsValue)) :
    ∀ props : List (String × Template),
    props.all (fun p => isTotalPrimB p.2) = true →
    ∃ ds, fromJsFields props (.obj ctor fields) = .ok ds ∧
      ∀ (n : String) (t : Template), lookupA props n = some t →
        ∃ d, lookupA ds n = some d ∧
          fromJs t ((lookupA fields n).getD .undef) = .ok d := by
  intro props
  induction props with
  | nil =>
    intro _
    refine ⟨[], by simp [fromJsFields], ?_⟩
    intro n t h
    simp [lookupA] at h
  | cons p rest ih =>
    obtain ⟨m, tm⟩ := p
    intro hall
    simp only [List.all_cons, Bool.and_eq_true] at hall
    obtain ⟨hm, hrest⟩ := hall
    obtain ⟨dm, hdm⟩ := fromJs_totalPrim hm ((lookupA fields m).getD .undef)
    obtain ⟨ds', hds', hprop⟩ := ih hrest
    refine ⟨(m, dm) :: ds', ?_, ?_⟩
    · simp [fromJsFields, jsGet, hdm, hds']
    · intro n t hlk
      by_cases h : m = n
      · subst h
        simp only [lookupA, if_pos rfl] at hlk ⊢
        injection hlk with hlk
        subst hlk
        exact ⟨dm, rfl, hdm⟩
      · simp only [lookupA, if_neg h] at hlk ⊢
        exact hprop n t hlk


/-! ## Claim theorems -/

/-- C1: Native round trip — for every schema `S` (with the unique property
keys every JavaScript template object has) and every native value `V` whose
shape exactly matches `S`, `S.fromJs(V).toJs()` equals `V` field for field,
except that each object in the result is rebuilt by the schema's declared
native constructor (`retag`) instead of `V`'s own constructor. -/
theorem c1_native_roundtrip (S : Template) (V : JsValue)
    (hm : matchesB S V = true) (hn : nodupKeysB S = true) :
    (fromJs S V).map toJs = .ok (retag S V) := by
  obtain ⟨d, hok, htj, _⟩ := fromJs_ok_of_matches S V hm hn
  rw [hok]
  simp [Except.map, htj]

/-- C1 witness: the README example `{a: 15, b: true, c: [3, 5]}` against
`Object({a: Number(), b: Boolean(), c: Array("number", Number())})`. -/
theorem c1_native_roundtrip_witness :
    (fromJs exTemplate exData).map toJs = .ok exData := by
  have h := c1_native_roundtrip exTemplate exData rfl rfl
  exact h.trans rfl

/-- C2 counterexample: the text round trip does not return `V` itself when
`V`'s constructor differs from the schema's declared one — for the schema
`Object({}, P)` and the plain object `V = {}` (constructor `Object`), the
shape matches, yet re-ingesting the serialized text and rendering to native
yields a `P`-constructed object, not `V`. -/
theorem c2_text_roundtrip_counterexample :
    matchesB (.tobject [] "P") (.obj "Object" []) = true ∧
    fromJs (.tobject [] "P") (.obj "Object" []) = .ok (.dobject (.tobject [] "P") []) ∧
    (fromXmlString (.tobject [] "P")
        (toXmlString (.dobject (.tobject [] "P") []) "root")).map toJs =
      some (.obj "P" []) ∧
    JsValue.obj "P" [] ≠ JsValue.obj "Object" [] := by
  refine ⟨rfl, by simp [fromJs, fromJsFields], rfl, ?_⟩
  intro h
  injection h with h1 h2
  exact absurd h1 (by decide)

/-- C2 (amended): for every schema `S` with unique property keys and
well-formed tag names, and every native value `V` whose shape exactly
matches `S`, serializing `S.fromJs(V)` with `toXmlString("root")`,
re-parsing with `S.fromXmlString`, and rendering with `toJs()` yields `V`
with each object's constructor replaced by the schema's declared one — in
particular `V` itself whenever `V`'s constructors already agree with the
schema's. -/
theorem c2_text_roundtrip_retag (S : Template) (V : JsValue) (d : DEntity)
    (hm : matchesB S V = true) (hn : nodupKeysB S = true)
    (hv : validNamesB S = true) (hok : fromJs S V = .ok d) :
    (fromXmlString S (toXmlString d "root")).map toJs = some (retag S V) := by
  obtain ⟨d', hok', htj, hcf⟩ := fromJs_ok_of_matches S V hm hn
  rw [hok] at hok'
  injection hok' with he
  subst he
  rw [fromXmlString_toXmlString S d hcf hv hn]
  simp [htj]

/-- C2 witness: the README example survives the full text round trip. -/
theorem c2_text_roundtrip_retag_witness :
    ∃ d, fromJs exTemplate exData = .ok d ∧
      (fromXmlString exTemplate (toXmlString d "root")).map toJs = some exData := by
  have hok : fromJs exTemplate exData = .ok (.dobject exTemplate
      [("a", .dvalue .tnumber (.num (some 15))), ("b", .dvalue .tboolean (.bool true)),
       ("c", .darray (.tarray "number" .tnumber)
         [.dvalue .tnumber (.num (some 3)), .dvalue .tnumber (.num (some 5))])]) := by
    simp [exTemplate, exData, fromJs, fromJsFields, fromJsItems, jsGet, lookupA,
      show parseFloatJs (.num (some 15)) = some 15 from rfl,
      show parseBooleanJs (.bool true) = true from rfl,
      show parseFloatJs (.num (some 3)) = some 3 from rfl,
      show parseFloatJs (.num (some 5)) = some 5 from rfl]
  refine ⟨_, hok, ?_⟩
  have h := c2_text_roundtrip_retag exTemplate exData _ rfl rfl rfl hok
  exact h.trans rfl

/-- C3: First match wins — if a declared property's tag occurs among a
node's children, `TObject.fromXml` fills the property from the first such
child in document order and silently drops every later child with the same
tag (the trailing `post` children, which may contain any number of
duplicates, do not affect the property). -/
theorem c3_first_match_wins (props : List (String × Template)) (c tag n : String)
    (t : Template) (children pre post : List Node) (ch : Node)
    (hdecl : lookupA props n = some t)
    (hsplit : children = pre ++ ch :: post)
    (hch : objChildName ch = n)
    (hpre : ∀ c' ∈ pre, objChildName c' ≠ n) :
    lookupProp (fromXml (.tobject props c) (.elem tag children)) n =
      some (fromXml t ch) := by
  subst hsplit
  simp only [fromXml, lookupProp, propsOf]
  exact fromXmlFold_first props n t hdecl pre ch post [] hch hpre rfl

/-- C3 witness: `Object({a: Number()})` on `<x><a>1</a><a>2</a></x>`
yields `a = 1`. -/
theorem c3_first_match_wins_witness :
    lookupProp (fromXml (.tobject [("a", .tnumber)] "Object")
        (.elem "x" [.elem "a" [.text "1"], .elem "a" [.text "2"]])) "a" =
      some (.dvalue .tnumber (.num (some 1))) := by
  have h := c3_first_match_wins [("a", .tnumber)] "Object" "x" "a" .tnumber
    [.elem "a" [.text "1"], .elem "a" [.text "2"]] [] [.elem "a" [.text "2"]]
    (.elem "a" [.text "1"]) rfl rfl rfl (by simp)
  exact h.trans rfl

/-- C4 counterexample: the String coercion is not total on native input —
`TString.fromJs(undefined)` evaluates `undefined.toString()`, which throws
a `TypeError` (modelled as `Except.error`). -/
theorem c4_coercion_counterexample :
    fromJs .tstring .undef = .error () := by
  simp [fromJs]

/-- C4 (amended): the Boolean, Integer and Number coercions are total on
every raw input (unparsable numeric input yields the `NaN` sentinel and
unparsable boolean input yields `false`); the String coercion is total on
every text content (the tree path always passes a string) and on every
native value except `undefined` (where `v.toString()` throws). -/
theorem c4_coercion_total_amended :
    (∀ v : JsValue, fromJs .tboolean v = .ok (.dvalue .tboolean (.bool (parseBooleanJs v)))) ∧
    (∀ v : JsValue, fromJs .tinteger v = .ok (.dvalue .tinteger (.num (parseIntJs v)))) ∧
    (∀ v : JsValue, fromJs .tnumber v = .ok (.dvalue .tnumber (.num (parseFloatJs v)))) ∧
    (∀ v : JsValue, v ≠ .undef → ∃ d, fromJs .tstring v = .ok d) ∧
    (∀ node : Node, fromXml .tstring node = .dvalue .tstring (.str (textContent node))) ∧
    fromJs .tinteger (.str "banana") = .ok (.dvalue .tinteger (.num none)) ∧
    parseBooleanJs (.str "banana") = false := by
  have hint : ∀ v : JsValue, fromJs .tinteger v =
      .ok (.dvalue .tinteger (.num (parseIntJs v))) := fun v => by simp [fromJs]
  refine ⟨fun v => by simp [fromJs], hint, fun v => by simp [fromJs], ?_,
    fun node => by cases node <;> rfl, ?_, by decide⟩
  · intro v hv
    cases v with
    | undef => exact absurd rfl hv
    | bool b => exact ⟨.dvalue .tstring (.str (jsToString (.bool b))), by simp [fromJs]⟩
    | num j => exact ⟨.dvalue .tstring (.str (jsToString (.num j))), by simp [fromJs]⟩
    | str s => exact ⟨.dvalue .tstring (.str (jsToString (.str s))), by simp [fromJs]⟩
    | arr items => exact ⟨.dvalue .tstring (.str (jsToString (.arr items))), by simp [fromJs]⟩
    | obj ctor fields =>
      exact ⟨.dvalue .tstring (.str (jsToString (.obj ctor fields))), by simp [fromJs]⟩
  · exact (hint (.str "banana")).trans rfl

/-- C4 witness: the String coercion succeeds on an ordinary string. -/
theorem c4_coercion_total_amended_witness :
    ∃ d, fromJs .tstring (.str "hello") = .ok d :=
  c4_coercion_total_amended.2.2.2.1 (.str "hello") (fun h => nomatch h)

/-- C5 counterexample: a missing native field is not lenient for every
child schema kind — for `Object({a: String()})` applied to `{}`, reading
the missing field yields `undefined` and `undefined.toString()` throws. -/
theorem c5_missing_field_counterexample :
    fromJs (.tobject [("a", .tstring)] "Object") (.obj "Object" []) = .error () := by
  simp [fromJs, fromJsFields, jsGet, lookupA]

/-- C5 (amended): for an `ObjectSchema` all of whose declared children are
of the Boolean, Integer or Number kinds, `fromJs` never throws on an object
value missing a declared field: the missing field is read as `undefined`
and coerced to a present child (`false` or `NaN`); the String, Object and
Array child kinds instead throw on a missing field. -/
theorem c5_missing_field_lenient (props : List (String × Template)) (c n0 : String)
    (t0 : Template) (ctor : String) (fields : List (String × JsValue))
    (hall : props.all (fun p => isTotalPrimB p.2) = true)
    (hdecl : lookupA props n0 = some t0)
    (hmiss : lookupA fields n0 = none) :
    ∃ ds d0,
      fromJs (.tobject props c) (.obj ctor fields) = .ok (.dobject (.tobject props c) ds) ∧
      fromJs t0 .undef = .ok d0 ∧ lookupA ds n0 = some d0 := by
  obtain ⟨ds, hds, hprop⟩ := fromJsFields_totalPrim ctor fields props hall
  obtain ⟨d0, hd0, hfj⟩ := hprop n0 t0 hdecl
  rw [hmiss] at hfj
  simp only [Option.getD_none] at hfj
  exact ⟨ds, d0, by simp [fromJs, hds], hfj, hd0⟩

/-- C5 witness: `Object({a: Number()})` on `{}` succeeds, with `a` bound to
the coercion of `undefined` (a `NaN` value node). -/
theorem c5_missing_field_lenient_witness :
    ∃ ds d0,
      fromJs (.tobject [("a", .tnumber)] "Object") (.obj "Object" []) =
        .ok (.dobject (.tobject [("a", .tnumber)] "Object") ds) ∧
      fromJs .tnumber .undef = .ok d0 ∧ lookupA ds "a" = some d0 :=
  c5_missing_field_lenient [("a", .tnumber)] "Object" "a" .tnumber "Object" [] rfl rfl rfl

/-- C6: Omission is absence on the tree path — when a node has no child for
a declared property `n`, `fromXml` leaves `n` unset in the intermediate
mapping, and `toJs` leaves it unset on the freshly constructed object (no
zero or empty default). -/
theorem c6_omission_absence (props : List (String × Template)) (c tag n : String)
    (children : List Node)
    (hdecl : (lookupA props n).isSome = true)
    (habs : ∀ ch ∈ children, objChildName ch ≠ n) :
    lookupProp (fromXml (.tobject props c) (.elem tag children)) n = none ∧
    lookupA (jsFields (toJs (fromXml (.tobject props c) (.elem tag children)))) n = none := by
  have h1 : lookupA (fromXmlFold props children []) n = none :=
    fromXmlFold_none props n children [] habs rfl
  constructor
  · simp [fromXml, lookupProp, propsOf, h1]
  · simp [fromXml, toJs, jsFields, toJsFields_lookup, h1]

/-- C6 witness: `Object({a: Number(), b: String()})` on `<x></x>` has
neither `a` nor `b` set, in the intermediate mapping or on the rendered
native object. -/
theorem c6_omission_absence_witness :
    lookupProp (fromXml (.tobject [("a", .tnumber), ("b", .tstring)] "Object")
        (.elem "x" [])) "a" = none ∧
    lookupA (jsFields (toJs (fromXml (.tobject [("a", .tnumber), ("b", .tstring)] "Object")
        (.elem "x" [])))) "a" = none ∧
    lookupProp (fromXml (.tobject [("a", .tnumber), ("b", .tstring)] "Object")
        (.elem "x" [])) "b" = none ∧
    lookupA (jsFields (toJs (fromXml (.tobject [("a", .tnumber), ("b", .tstring)] "Object")
        (.elem "x" [])))) "b" = none := by
  have ha := c6_omission_absence [("a", .tnumber), ("b", .tstring)] "Object" "x" "a" [] rfl
    (by simp)
  have hb := c6_omission_absence [("a", .tnumber), ("b", .tstring)] "Object" "x" "b" [] rfl
    (by simp)
  exact ⟨ha.1, ha.2, hb.1, hb.2⟩

/-- C7: Array tag filtering and uniform item tags — `TArray.fromXml` keeps
exactly the children whose tag equals the declared item name, in document
order, skipping all others without error, and `toXml` renders every item
under that same single tag; on `<c><n>3</n><other>9</other><n>5</n></c>`
with `Array("n", Integer())`, ingestion yields `[3, 5]` and re-rendering
under `"c"` yields `<c><n>3</n><n>5</n></c>`. -/
theorem c7_array_tag_filtering :
    (∀ (nm : String) (t : Template) (tag c : String) (children : List Node),
      fromXml (.tarray nm t) (.elem tag children) =
        .darray (.tarray nm t) ((children.filter (isElemNamed nm)).map (fromXml t)) ∧
      toXml (fromXml (.tarray nm t) (.elem tag children)) c =
        .elem c (((children.filter (isElemNamed nm)).map (fromXml t)).map
          (fun d => toXml d nm))) ∧
    toJs (fromXml (.tarray "n" .tinteger)
        (.elem "c" [.elem "n" [.text "3"], .elem "other" [.text "9"], .elem "n" [.text "5"]])) =
      .arr [.num (some 3), .num (some 5)] ∧
    toXml (fromXml (.tarray "n" .tinteger)
        (.elem "c" [.elem "n" [.text "3"], .elem "other" [.text "9"], .elem "n" [.text "5"]]))
        "c" =
      .elem "c" [.elem "n" [.text "3"], .elem "n" [.text "5"]] := by
  refine ⟨?_, rfl, rfl⟩
  intro nm t tag c children
  constructor
  · simp [fromXml, fromXmlItems_eq_filter_map]
  · simp [fromXml, toXml, itemNameOf, fromXmlItems_eq_filter_map, toXmlItems_eq_map]

/-- C8: Boolean coercion table — the Boolean coercion returns `true`
exactly when the raw input is the string `"true"`, the boolean `true`, or
parses as the integer 1; everything else coerces to `false`; with the
six-entry table from the specification and the connection to
`TBoolean.fromJs`. -/
theorem c8_boolean_table :
    (∀ v : JsValue, parseBooleanJs v = true ↔
      (v = .str "true" ∨ v = .bool true ∨ parseIntJs v = some 1)) ∧
    parseBooleanJs (.str "true") = true ∧
    parseBooleanJs (.bool true) = true ∧
    parseBooleanJs (.str "1") = true ∧
    parseBooleanJs (.str "0") = false ∧
    parseBooleanJs (.str "false") = false ∧
    parseBooleanJs (.str "banana") = false ∧
    (∀ v : JsValue, fromJs .tboolean v = .ok (.dvalue .tboolean (.bool (parseBooleanJs v)))) := by
  refine ⟨?_, by decide, by decide, by decide, by decide, by decide, by decide,
    fun v => by simp [fromJs]⟩
  intro v
  cases v <;> simp [parseBooleanJs, isLiteralTrueString, isBoolTrue, beq_iff_eq]

/-- C10: Native ingestion never omits a declared key — whenever
`TObject.fromJs` returns without throwing, the intermediate mapping binds
every declared key, in declaration order, and `toJs()` therefore assigns
every declared key on the constructed object. -/
theorem c10_native_keys_complete (props : List (String × Template)) (c : String)
    (v : JsValue) (d : DEntity)
    (hok : fromJs (.tobject props c) v = .ok d) :
    ∃ ds, d = .dobject (.tobject props c) ds ∧
      ds.map Prod.fst = props.map Prod.fst ∧
      (jsFields (toJs d)).map Prod.fst = props.map Prod.fst := by
  simp only [fromJs] at hok
  rcases hf : fromJsFields props v with e | ds
  · simp [hf] at hok
  · simp only [hf] at hok
    injection hok with hok
    refine ⟨ds, hok.symm, fromJsFields_keys props v ds hf, ?_⟩
    rw [← hok]
    simp [toJs, jsFields, toJsFields_keys, fromJsFields_keys props v ds hf]

/-- C10 witness: a field missing from the native value still yields an
entry (a `NaN`-valued node under a Number child schema). -/
theorem c10_native_keys_complete_witness :
    ∃ ds, (DEntity.dobject (.tobject [("a", .tnumber)] "Object")
        [("a", .dvalue .tnumber (.num none))]) =
      .dobject (.tobject [("a", .tnumber)] "Object") ds ∧
      ds.map Prod.fst = [("a", Template.tnumber)].map Prod.fst ∧
      (jsFields (toJs (DEntity.dobject (.tobject [("a", .tnumber)] "Object")
        [("a", .dvalue .tnumber (.num none))]))).map Prod.fst =
        [("a", Template.tnumber)].map Prod.fst :=
  c10_native_keys_complete [("a", .tnumber)] "Object" (.obj "Object" [])
    (.dobject (.tobject [("a", .tnumber)] "Object") [("a", .dvalue .tnumber (.num none))])
    (by simp [fromJs, fromJsFields, jsGet, lookupA,
      show parseFloatJs .undef = none from rfl])

end JsSer
